import Mathlib

/-!
Verification development for the VibeTrade repository: a shallow embedding of
the risk-console pipeline (normalizer, risk engine, interrupt controller,
generation gateway, broadcaster) and of the chart helper functions in
frontend/app/components/holdings/StocksHoldings.tsx, together with proofs of
the specified properties.

The backend Python modules (logic/normalizer.py, logic/risk_engine.py,
logic/event_router.py, ws_manager.py, ai/generate_roast.py, ai/generate_voice.py)
are not present in the tree; only the backend README documents them.  Those
components are therefore modelled from the specification text, and each such
definition carries a doc comment saying so.  The TypeScript helpers
normalizeSymbol, getTimeFrameSeconds and aggregateDataByTimeFrame are
translated directly from StocksHoldings.tsx.
-/

namespace VibeTrade

/-! ### Normalizer (spec-modelled) -/

/-- Modelled from the spec: capacity of the bounded normalization window.
The backend file logic/normalizer.py is absent from the tree; the backend
README documents historical tracking of 100 data points. -/
def windowCapacity : Nat := 100

/-- Modelled from the spec: push a value into the bounded window, evicting the
oldest entry (the head) if the window is at capacity. -/
def pushWindow (v : ℚ) (w : List ℚ) : List ℚ :=
  if windowCapacity ≤ w.length then w.drop 1 ++ [v] else w ++ [v]

/-- Modelled from the spec: observedMin, recomputed as the minimum over the
current window. -/
def observedMin : List ℚ → ℚ
  | [] => 0
  | x :: xs => xs.foldl min x

/-- Modelled from the spec: observedMax, recomputed as the maximum over the
current window. -/
def observedMax : List ℚ → ℚ
  | [] => 0
  | x :: xs => xs.foldl max x

/-- Modelled from the spec: adaptive min-max normalization.  Pushes the value
into the window, recomputes observed bounds, returns the neutral score 50 in
the degenerate case, otherwise the scaled value clamped to the interval
from 0 to 100.  Returns the score together with the updated window. -/
def normalize (v : ℚ) (w : List ℚ) : ℚ × List ℚ :=
  let w2 := pushWindow v w
  let mn := observedMin w2
  let mx := observedMax w2
  if mx = mn then (50, w2)
  else (min 100 (max 0 (100 * (v - mn) / (mx - mn))), w2)

/-- Modelled from the spec: feeding a sequence of raw values through the
normalizer, collecting the returned scores. -/
def normalizeRun : List ℚ → List ℚ → List ℚ
  | _, [] => []
  | w, v :: vs =>
    let r := normalize v w
    r.1 :: normalizeRun r.2 vs

/-! ### Risk Engine (spec-modelled) -/

/-- Modelled from the spec: per-source weights of the composite formula. -/
structure RiskWeights where
  wExchange : ℚ
  wMarket : ℚ
  wSentiment : ℚ

/-- Modelled from the spec: a score is in the extreme band when it is
above 80 or below 20. -/
def extremeScore (s : ℚ) : Bool := decide (80 < s ∨ s < 20)

/-- Modelled from the spec: recompute of the composite risk score.  The file
logic/risk_engine.py is absent from the tree.  Missing sources are excluded
and the weights renormalized over the present sources; when at least two
present sources are in the extreme band the base is multiplied by the
amplification factor and capped at 100; the result is clamped to the
interval from 0 to 100. -/
def recompute (factor : ℚ) (w : RiskWeights) (se sm ss : Option ℚ) : ℚ :=
  let entries : List (ℚ × Option ℚ) :=
    [(w.wExchange, se), (w.wMarket, sm), (w.wSentiment, ss)]
  let present : List (ℚ × ℚ) :=
    entries.filterMap (fun e => e.2.map (fun s => (e.1, s)))
  let totalW : ℚ := (present.map Prod.fst).sum
  let base : ℚ :=
    if totalW = 0 then 0 else (present.map (fun e => e.1 * e.2)).sum / totalW
  let nExtreme : Nat := (present.filter (fun e => extremeScore e.2)).length
  let amplified : ℚ := if 2 ≤ nExtreme then min (base * factor) 100 else base
  min 100 (max 0 amplified)

/-! ### Interrupt Controller (spec-modelled) -/

/-- Modelled from the spec: the mutable state of the interrupt controller. -/
structure InterruptState where
  lastFiredAt : Option Nat
  cooldownSeconds : Nat
  thresholdValue : ℚ

/-- Modelled from the spec: the controller is armed when it has never fired or
the cooldown has elapsed since the last firing; evaluated lazily on each
score update. -/
def armed (st : InterruptState) (now : Nat) : Bool :=
  match st.lastFiredAt with
  | none => true
  | some t => decide (st.cooldownSeconds ≤ now - t)

/-- Modelled from the spec: processing one composite score update.  Fires
exactly when the score reaches the threshold while armed, recording the
firing time.  Returns the new state and whether an event fired. -/
def stepInterrupt (st : InterruptState) (now : Nat) (score : ℚ) :
    InterruptState × Bool :=
  if armed st now ∧ st.thresholdValue ≤ score then
    ({ st with lastFiredAt := some now }, true)
  else (st, false)

/-- Modelled from the spec: running the controller over a timed score
sequence, collecting the firing times of the emitted interrupt events. -/
def runInterrupts (st : InterruptState) : List (Nat × ℚ) → List Nat
  | [] => []
  | (t, s) :: rest =>
    let r := stepInterrupt st t s
    if r.2 then t :: runInterrupts r.1 rest else runInterrupts r.1 rest

/-! ### Generation Gateway (spec-modelled) -/

/-- Modelled from the spec: an interrupt event as broadcast to clients. -/
structure InterruptEvent where
  score : ℚ
  roastText : String
  audioRef : String
  firedAt : Nat

/-- Modelled from the spec: the canned fallback line substituted when text
generation fails. -/
def fallbackRoast : String := "Risk is spiking and the roast generator is speechless."

/-- Modelled from the spec: the default pre-recorded audio reference
substituted when speech synthesis fails. -/
def defaultAudioRef : String := "/audio/default.mp3"

/-- Modelled from the spec: materialize the content of a firing interrupt.
The text generator and the speech synthesizer are collaborators that may
fail, modelled as Option-returning functions; on failure the canned fallback
line or the default audio reference is substituted. -/
def materialize (textGen : Option String) (speechGen : String → Option String) :
    String × String :=
  let roast := textGen.getD fallbackRoast
  let audio := (speechGen roast).getD defaultAudioRef
  (roast, audio)

/-- Modelled from the spec: delivery of a firing interrupt.  Total: an event
is always produced, so a generation failure never aborts delivery. -/
def deliverInterrupt (textGen : Option String) (speechGen : String → Option String)
    (score : ℚ) (now : Nat) : InterruptEvent :=
  let content := materialize textGen speechGen
  { score := score, roastText := content.1, audioRef := content.2, firedAt := now }

/-! ### Broadcaster (spec-modelled) -/

/-- Modelled from the spec: a client connection in the registry; writeOk
records whether a write to this connection succeeds. -/
structure Connection where
  id : Nat
  writeOk : Bool

/-- Modelled from the spec: broadcast iterates the registry and writes to each
connection; a failed write removes that connection from the registry and
delivery continues with the rest.  Returns the list of connections the
message was delivered to and the registry afterward. -/
def broadcast (msg : String) : List Connection → List Connection × List Connection
  | [] => ([], [])
  | c :: rest =>
    let r := broadcast msg rest
    if c.writeOk then (c :: r.1, c :: r.2) else (r.1, r.2)

/-! ### Chart helpers, translated from StocksHoldings.tsx -/

/-- One OHLC data point of the chart, as in the dataPointsRef element type of
StocksHoldings.tsx; the volume field is optional there. -/
structure Bar where
  time : Int
  openP : ℚ
  high : ℚ
  low : ℚ
  close : ℚ
  volume : Option ℚ
deriving DecidableEq

/-- The TimeFrame union type of StocksHoldings.tsx. -/
inductive TimeFrame where
  | m1 | m5 | m10 | m15 | m30 | h1 | h4 | d1

/-- Translated from getTimeFrameSeconds in StocksHoldings.tsx. -/
def getTimeFrameSeconds : TimeFrame → Int
  | .m1 => 60
  | .m5 => 300
  | .m10 => 600
  | .m15 => 900
  | .m30 => 1800
  | .h1 => 3600
  | .h4 => 14400
  | .d1 => 86400

/-- The bucket of a time value: Math.floor of the time divided by the frame
length, times the frame length, as in aggregateDataByTimeFrame. -/
def bucketOf (tfs : Int) (t : Int) : Int := (Int.fdiv t tfs) * tfs

/-- Insertion into the grouping map.  A JavaScript Map iterates in key
insertion order, and the loop appends each point to the list under its
bucket key; this models that map as an association list in insertion
order. -/
def insertGrouped (key : Int) (p : Bar) :
    List (Int × List Bar) → List (Int × List Bar)
  | [] => [(key, [p])]
  | (k, ps) :: rest =>
    if k = key then (k, ps ++ [p]) :: rest
    else (k, ps) :: insertGrouped key p rest

/-- The grouping loop of aggregateDataByTimeFrame: each point is filed under
its bucket time. -/
def groupByBucket (tfs : Int) (data : List Bar) : List (Int × List Bar) :=
  data.foldl (fun acc p => insertGrouped (bucketOf tfs p.time) p acc) []

/-- The loop body aggregating one group into an OHLC bar: sort the points by
time, take the open of the first and the close of the last, the maximum of
the highs, the minimum of the lows, and the sum of the volumes with missing
volume read as 0.  Empty groups are skipped in the source, hence the Option
result. -/
def aggregateGroup (bucketTime : Int) (points : List Bar) : Option Bar :=
  match List.insertionSort (fun a b => a.time ≤ b.time) points with
  | [] => none
  | q :: qs =>
    some { time := bucketTime
           openP := q.openP
           high := qs.foldl (fun m r => max m r.high) q.high
           low := qs.foldl (fun m r => min m r.low) q.low
           close := (qs.getLastD q).close
           volume := some ((q :: qs).foldl (fun s r => s + r.volume.getD 0) 0) }

/-- Translated from aggregateDataByTimeFrame in StocksHoldings.tsx: group the
points by time-frame bucket, aggregate each group into one OHLC bar, and
sort the bars by time.  The in-place numeric sorts of the source are modelled
by insertion sort, which is a stable ascending sort like the JavaScript
one. -/
def aggregateDataByTimeFrame (data : List Bar) (tf : TimeFrame) : List Bar :=
  if data.isEmpty then []
  else
    let tfs := getTimeFrameSeconds tf
    let grouped := groupByBucket tfs data
    let aggregated := grouped.filterMap (fun kp => aggregateGroup kp.1 kp.2)
    List.insertionSort (fun a b => a.time ≤ b.time) aggregated

instance : IsTotal Bar (fun a b => a.time ≤ b.time) :=
  ⟨fun a b => Int.le_total a.time b.time⟩

instance : IsTrans Bar (fun a b => a.time ≤ b.time) :=
  ⟨fun _ _ _ hab hbc => le_trans hab hbc⟩

/-- Lookup of the group stored under a key in the grouping association
list. -/
def findGroup (k : Int) : List (Int × List Bar) → List Bar
  | [] => []
  | (q, ps) :: rest => if q = k then ps else findGroup k rest

/-- The points of the input whose time rounds down to the given bucket
time. -/
def bucketMembers (tfs : Int) (data : List Bar) (t : Int) : List Bar :=
  data.filter (fun p => bucketOf tfs p.time == t)

/-- Removal of the first occurrence of a pattern, as the JavaScript
String.replace with a string pattern and an empty replacement does. -/
def jsReplaceFirst : List Char → List Char → List Char
  | [], _ => []
  | c :: rest, pat =>
    if pat.isPrefixOf (c :: rest) then (c :: rest).drop pat.length
    else c :: jsReplaceFirst rest pat

/-- Translated from normalizeSymbol in StocksHoldings.tsx: remove the first
occurrence of the substring slash-USD, then the first remaining slash, strip
a trailing USD, and convert to upper case.  Strings are modelled as lists of
characters. -/
def normalizeSymbol (s : List Char) : List Char :=
  let n1 := jsReplaceFirst s ("/USD".toList)
  let n2 := jsReplaceFirst n1 ("/".toList)
  let n3 := if ("USD".toList).isSuffixOf n2 then n2.take (n2.length - 3) else n2
  n3.map Char.toUpper

/-! ### Helper lemmas -/

theorem clampBounds (x : ℚ) : 0 ≤ min 100 (max 0 x) ∧ min 100 (max 0 x) ≤ 100 :=
  ⟨le_min (by norm_num) (le_max_left 0 x), min_le_left _ _⟩

theorem normalize_fst_bounds (v : ℚ) (w : List ℚ) :
    0 ≤ (normalize v w).1 ∧ (normalize v w).1 ≤ 100 := by
  simp only [normalize]
  split
  · exact ⟨by norm_num, by norm_num⟩
  · exact clampBounds _

theorem normalizeRun_bounds_aux :
    ∀ (vs w : List ℚ) (r : ℚ), r ∈ normalizeRun w vs → 0 ≤ r ∧ r ≤ 100 := by
  intro vs
  induction vs with
  | nil => intro w r hr; simp [normalizeRun] at hr
  | cons v vs ih =>
    intro w r hr
    simp only [normalizeRun, List.mem_cons] at hr
    rcases hr with h | h
    · exact h ▸ normalize_fst_bounds v w
    · exact ih _ _ h

theorem pushWindow_length_le (v : ℚ) (w : List ℚ) (h : w.length ≤ windowCapacity) :
    (pushWindow v w).length ≤ windowCapacity := by
  unfold pushWindow windowCapacity at *
  split
  · simp only [List.length_append, List.length_drop, List.length_cons,
      List.length_nil]
    omega
  · simp only [List.length_append, List.length_cons, List.length_nil]
    omega

theorem foldl_pushWindow_length_le :
    ∀ (vs w : List ℚ), w.length ≤ windowCapacity →
      (vs.foldl (fun w v => pushWindow v w) w).length ≤ windowCapacity := by
  intro vs
  induction vs with
  | nil => intro w h; simpa using h
  | cons v vs ih =>
    intro w h
    exact ih _ (pushWindow_length_le v w h)

theorem runInterrupts_chain_aux (C : Nat) (T : ℚ) :
    ∀ (us : List (Nat × ℚ)) (lf : Option Nat),
      List.Chain' (fun a b => C ≤ b - a)
        (lf.toList ++ runInterrupts ⟨lf, C, T⟩ us) := by
  intro us
  induction us with
  | nil =>
    intro lf
    cases lf <;> simp [runInterrupts]
  | cons p rest ih =>
    intro lf
    obtain ⟨t, s⟩ := p
    by_cases hc : (armed ⟨lf, C, T⟩ t = true ∧ T ≤ s)
    · have hrun : runInterrupts ⟨lf, C, T⟩ ((t, s) :: rest) =
          t :: runInterrupts ⟨some t, C, T⟩ rest := by
        simp [runInterrupts, stepInterrupt, hc]
      rw [hrun]
      have h2 := ih (some t)
      cases lf with
      | none => simpa using h2
      | some t0 =>
        have harm : C ≤ t - t0 := by
          have h1 := hc.1
          simpa [armed] using h1
        exact List.chain'_cons.mpr ⟨harm, by simpa using h2⟩
    · have hrun : runInterrupts ⟨lf, C, T⟩ ((t, s) :: rest) =
          runInterrupts ⟨lf, C, T⟩ rest := by
        simp [runInterrupts, stepInterrupt, hc]
      rw [hrun]
      exact ih lf

/-! ### Claim theorems -/

/-- C1: with threshold 75 and cooldown 60, the score sequence 60 at time 0,
80 at time 1, 82 at time 2 and 76 at time 70 fires exactly two interrupt
events, at times 1 and 70; and in general, along any run of the controller,
consecutive firing times are at least one cooldown apart, and an event fired
from a state with a recorded last firing time is at least one cooldown after
it, so at most one event is created per cooldown window. -/
theorem interrupt_cooldown_spec :
    runInterrupts ⟨none, 60, 75⟩ [(0, 60), (1, 80), (2, 82), (70, 76)] = [1, 70] ∧
    ∀ (C : Nat) (T : ℚ) (lf : Option Nat) (us : List (Nat × ℚ)),
      List.Chain' (fun a b => C ≤ b - a) (lf.toList ++ runInterrupts ⟨lf, C, T⟩ us) :=
  ⟨by decide, fun C T lf us => runInterrupts_chain_aux C T us lf⟩

/-- C2: every score returned by the normalizer along any input sequence lies
in the interval from 0 to 100. -/
theorem normalizeRun_mem_bounds (vs : List ℚ) (r : ℚ)
    (hr : r ∈ normalizeRun [] vs) : 0 ≤ r ∧ r ≤ 100 :=
  normalizeRun_bounds_aux vs [] r hr

/-- C2 witness: the score produced for the concrete one-point feed 3 is in
bounds. -/
theorem normalizeRun_mem_bounds_witness : (0 : ℚ) ≤ 50 ∧ (50 : ℚ) ≤ 100 :=
  normalizeRun_mem_bounds [3] 50 (by decide)

/-- C3: whenever the observed maximum equals the observed minimum over the
current window, which includes the first sample and a constant feed,
normalize returns exactly the neutral score 50. -/
theorem normalize_degenerate (v : ℚ) (w : List ℚ)
    (h : observedMax (pushWindow v w) = observedMin (pushWindow v w)) :
    (normalize v w).1 = 50 := by
  simp only [normalize]
  rw [if_pos h]

/-- C3 witness: the very first sample yields the neutral score 50. -/
theorem normalize_degenerate_witness : (normalize 7 []).1 = 50 :=
  normalize_degenerate 7 [] (by decide)

/-- C7: the normalization window never exceeds its capacity of 100 entries
along any push sequence, and a push at capacity evicts exactly the oldest
entry, the head of the window. -/
theorem window_capacity_invariant :
    (∀ vs : List ℚ, (vs.foldl (fun w v => pushWindow v w) []).length ≤ windowCapacity) ∧
    (∀ (v : ℚ) (w : List ℚ), w.length = windowCapacity →
      pushWindow v w = w.tail ++ [v]) := by
  constructor
  · intro vs
    exact foldl_pushWindow_length_le vs [] (by simp)
  · intro v w h
    unfold pushWindow
    rw [if_pos (le_of_eq h.symm), List.drop_one]

/-- C7 witness: a three-element feed stays within capacity, and a push at a
full window of 100 zeros drops the head. -/
theorem window_capacity_invariant_witness :
    ((([1, 2, 3] : List ℚ).foldl (fun w v => pushWindow v w) []).length ≤ windowCapacity) ∧
    pushWindow 5 (List.replicate 100 0) = (List.replicate 100 0).tail ++ [5] :=
  ⟨window_capacity_invariant.1 [1, 2, 3],
   window_capacity_invariant.2 5 (List.replicate 100 0) (by simp [windowCapacity])⟩

theorem broadcast_all_ok (msg : String) :
    ∀ l : List Connection, (∀ c ∈ l, c.writeOk = true) → broadcast msg l = (l, l) := by
  intro l
  induction l with
  | nil => intro _; rfl
  | cons c rest ih =>
    intro h
    have hc := h c (List.mem_cons_self c rest)
    have hr := ih (fun d hd => h d (List.mem_cons_of_mem c hd))
    simp [broadcast, hc, hr]

theorem broadcast_drop_bad (msg : String) (bad : Connection) (hbad : bad.writeOk = false)
    (ys : List Connection) (hys : ∀ c ∈ ys, c.writeOk = true) :
    ∀ xs : List Connection, (∀ c ∈ xs, c.writeOk = true) →
      broadcast msg (xs ++ bad :: ys) = (xs ++ ys, xs ++ ys) := by
  intro xs
  induction xs with
  | nil =>
    intro _
    simp [broadcast, hbad, broadcast_all_ok msg ys hys]
  | cons c rest ih =>
    intro h
    have hc := h c (List.mem_cons_self c rest)
    have hrest := ih (fun d hd => h d (List.mem_cons_of_mem c hd))
    simp [broadcast, hc, hrest]

/-- C4: for every weight configuration summing to 1 and per-source inputs in
the interval from 0 to 100, the recomputed composite score lies in the
interval from 0 to 100; in particular the amplification step is capped, so
the result never exceeds 100. -/
theorem recompute_bounds (factor : ℚ) (w : RiskWeights) (se sm ss : Option ℚ)
    (hw : w.wExchange + w.wMarket + w.wSentiment = 1)
    (hse : ∀ x, se = some x → 0 ≤ x ∧ x ≤ 100)
    (hsm : ∀ x, sm = some x → 0 ≤ x ∧ x ≤ 100)
    (hss : ∀ x, ss = some x → 0 ≤ x ∧ x ≤ 100) :
    0 ≤ recompute factor w se sm ss ∧ recompute factor w se sm ss ≤ 100 :=
  clampBounds _

/-- C4 witness: concrete weights two fifths, three tenths, three tenths and
in-range inputs give a composite inside the bounds. -/
theorem recompute_bounds_witness :
    0 ≤ recompute (3 / 2) ⟨2 / 5, 3 / 10, 3 / 10⟩ (some 50) (some 60) (some 70) ∧
      recompute (3 / 2) ⟨2 / 5, 3 / 10, 3 / 10⟩ (some 50) (some 60) (some 70) ≤ 100 :=
  recompute_bounds (3 / 2) ⟨2 / 5, 3 / 10, 3 / 10⟩ (some 50) (some 60) (some 70)
    (by norm_num)
    (fun x hx => by cases hx; norm_num)
    (fun x hx => by cases hx; norm_num)
    (fun x hx => by cases hx; norm_num)

/-- C5: with the sentiment source missing, recompute is the full pipeline
applied to the weighted average of the two present sources with their
weights renormalized to sum to 1; and at a concrete input the result
differs from the one obtained by treating the missing source as score 0. -/
theorem recompute_missing_source :
    (∀ (factor : ℚ) (w : RiskWeights) (se sm : ℚ), w.wExchange + w.wMarket ≠ 0 →
      recompute factor w (some se) (some sm) none =
        min 100 (max 0
          (if extremeScore se ∧ extremeScore sm then
            min ((w.wExchange / (w.wExchange + w.wMarket) * se +
                  w.wMarket / (w.wExchange + w.wMarket) * sm) * factor) 100
           else
            w.wExchange / (w.wExchange + w.wMarket) * se +
              w.wMarket / (w.wExchange + w.wMarket) * sm))) ∧
    recompute (3 / 2) ⟨2 / 5, 3 / 10, 3 / 10⟩ (some 50) (some 50) none ≠
      recompute (3 / 2) ⟨2 / 5, 3 / 10, 3 / 10⟩ (some 50) (some 50) (some 0) := by
  constructor
  · intro factor w se sm htw
    have harith : (w.wExchange * se + w.wMarket * sm) / (w.wExchange + w.wMarket) =
        w.wExchange / (w.wExchange + w.wMarket) * se +
          w.wMarket / (w.wExchange + w.wMarket) * sm := by
      field_simp
    cases h1 : extremeScore se <;> cases h2 : extremeScore sm <;>
      simp [recompute, h1, h2, htw, harith]
  · have e50 : extremeScore 50 = false := by decide
    have e0 : extremeScore 0 = true := by decide
    simp [recompute, e50, e0]
    norm_num [min_def, max_def]

/-- C5 witness: renormalized-average equality at the concrete weights two
fifths and three tenths and present scores 50 and 60. -/
theorem recompute_missing_source_witness :
    recompute (3 / 2) ⟨2 / 5, 3 / 10, 3 / 10⟩ (some 50) (some 60) none =
      min 100 (max 0
        (if extremeScore 50 ∧ extremeScore 60 then
          min ((2 / 5 / (2 / 5 + 3 / 10) * 50 + 3 / 10 / (2 / 5 + 3 / 10) * 60) * (3 / 2)) 100
         else
          2 / 5 / (2 / 5 + 3 / 10) * 50 + 3 / 10 / (2 / 5 + 3 / 10) * 60)) :=
  recompute_missing_source.1 (3 / 2) ⟨2 / 5, 3 / 10, 3 / 10⟩ 50 60 (by norm_num)

/-- C6: if text generation fails the gateway substitutes the canned fallback
line, if speech synthesis fails it substitutes the default pre-recorded
audio reference, and in every case an interrupt event is still delivered
carrying the requested score and firing time. -/
theorem generation_fallback (tg : Option String) (sg : String → Option String)
    (score : ℚ) (now : Nat) :
    (tg = none → (deliverInterrupt tg sg score now).roastText = fallbackRoast) ∧
    (sg ((materialize tg sg).1) = none →
      (deliverInterrupt tg sg score now).audioRef = defaultAudioRef) ∧
    (deliverInterrupt tg sg score now).score = score ∧
    (deliverInterrupt tg sg score now).firedAt = now := by
  refine ⟨?_, ?_, rfl, rfl⟩
  · intro h
    simp [deliverInterrupt, materialize, h]
  · intro h
    simp only [materialize] at h
    simp [deliverInterrupt, materialize, h]

/-- C6 witness: with both generators failing, the delivered event carries the
fallback line and the default audio reference. -/
theorem generation_fallback_witness :
    (deliverInterrupt none (fun _ => none) 88 5).roastText = fallbackRoast ∧
    (deliverInterrupt none (fun _ => none) 88 5).audioRef = defaultAudioRef :=
  ⟨(generation_fallback none (fun _ => none) 88 5).1 rfl,
   (generation_fallback none (fun _ => none) 88 5).2.1 rfl⟩

/-- C8: when exactly one connection in the registry fails to accept the
write, broadcast still delivers to all the others in order, and the registry
afterward consists of exactly those other connections, so it has one entry
fewer. -/
theorem broadcast_resilience (msg : String) (xs ys : List Connection)
    (bad : Connection) (hbad : bad.writeOk = false)
    (hxs : ∀ c ∈ xs, c.writeOk = true) (hys : ∀ c ∈ ys, c.writeOk = true) :
    broadcast msg (xs ++ bad :: ys) = (xs ++ ys, xs ++ ys) ∧
    (xs ++ ys).length = (xs ++ bad :: ys).length - 1 := by
  refine ⟨broadcast_drop_bad msg bad hbad ys hys xs hxs, ?_⟩
  simp [List.length_append]

/-- C8 witness: a registry of three connections whose middle write fails ends
with the two good connections delivered and registered. -/
theorem broadcast_resilience_witness :
    broadcast "hi" (([⟨1, true⟩] : List Connection) ++ (⟨2, false⟩ : Connection) :: [⟨3, true⟩]) =
      (([⟨1, true⟩] : List Connection) ++ [⟨3, true⟩],
        ([⟨1, true⟩] : List Connection) ++ [⟨3, true⟩]) ∧
    (([⟨1, true⟩] : List Connection) ++ ([⟨3, true⟩] : List Connection)).length =
      (([⟨1, true⟩] : List Connection) ++ (⟨2, false⟩ : Connection) :: [⟨3, true⟩]).length - 1 :=
  broadcast_resilience "hi" [⟨1, true⟩] [⟨3, true⟩] ⟨2, false⟩ rfl
    (by decide) (by decide)

theorem ofNat_upper_toUpper (n : Nat) (h1 : 65 ≤ n) (h2 : n ≤ 90) :
    (Char.ofNat n).toUpper = Char.ofNat n := by
  interval_cases n <;> decide

theorem toUpper_idem (c : Char) : c.toUpper.toUpper = c.toUpper := by
  by_cases h : 97 ≤ c.toNat ∧ c.toNat ≤ 122
  · have h1 : c.toUpper = Char.ofNat (c.toNat - 32) := by
      simp only [Char.toUpper]
      rw [if_pos ⟨h.1, h.2⟩]
    rw [h1]
    exact ofNat_upper_toUpper _ (by omega) (by omega)
  · have h1 : c.toUpper = c := by
      simp only [Char.toUpper]
      rw [if_neg (fun hh => h ⟨hh.1, hh.2⟩)]
    rw [h1]
    exact h1

theorem map_toUpper_idem (l : List Char) :
    (l.map Char.toUpper).map Char.toUpper = l.map Char.toUpper := by
  induction l with
  | nil => rfl
  | cons c cs ih => simp only [List.map_cons, toUpper_idem, ih]

theorem jsReplaceFirst_of_head_notMem (s : List Char) (c : Char) (pat : List Char)
    (h : c ∉ s) : jsReplaceFirst s (c :: pat) = s := by
  induction s with
  | nil => rfl
  | cons a rest ih =>
    have hca : (c == a) = false := by
      simp only [beq_eq_false_iff_ne, ne_eq]
      intro he
      exact h (he ▸ List.mem_cons_self a rest)
    have hp : (c :: pat).isPrefixOf (a :: rest) = false := by
      rw [List.isPrefixOf_cons₂, hca, Bool.false_and]
    rw [jsReplaceFirst, if_neg (by simp [hp]),
      ih (fun hm => h (List.mem_cons_of_mem a hm))]

theorem normalizeSymbol_map_toUpper (s : List Char) :
    ∃ u : List Char, normalizeSymbol s = u.map Char.toUpper := ⟨_, rfl⟩

/-- C10 counterexample: normalizeSymbol is not idempotent; applied to the
string USDUSD it yields USD, and applied once more it yields the empty
string. -/
theorem normalizeSymbol_not_idempotent :
    normalizeSymbol (normalizeSymbol ("USDUSD".toList)) ≠
      normalizeSymbol ("USDUSD".toList) := by decide

/-- C10 amended: normalizeSymbol is idempotent on every string whose
normalized form contains no slash character and does not end in USD; in
general a second application can strip a further USD suffix or slash, as the
counterexample shows. -/
theorem normalizeSymbol_idempotent_on (s : List Char)
    (h1 : ¬ ('/' ∈ normalizeSymbol s))
    (h2 : ("USD".toList).isSuffixOf (normalizeSymbol s) = false) :
    normalizeSymbol (normalizeSymbol s) = normalizeSymbol s := by
  obtain ⟨u, hu⟩ := normalizeSymbol_map_toUpper s
  set t := normalizeSymbol s with ht
  have e1 : jsReplaceFirst t ("/USD".toList) = t := by
    have hc : ("/USD".toList) = '/' :: ("USD".toList) := rfl
    rw [hc]
    exact jsReplaceFirst_of_head_notMem t '/' _ h1
  have e2 : jsReplaceFirst t ("/".toList) = t := by
    have hc : ("/".toList) = '/' :: ([] : List Char) := rfl
    rw [hc]
    exact jsReplaceFirst_of_head_notMem t '/' _ h1
  show normalizeSymbol t = t
  simp only [normalizeSymbol, e1, e2, h2]
  rw [if_neg (by simp [h2])]
  rw [hu]
  exact map_toUpper_idem u

/-- C10 amended witness: the symbol btc slash x normalizes to BTCX, which a
second normalization leaves unchanged. -/
theorem normalizeSymbol_idempotent_on_witness :
    normalizeSymbol (normalizeSymbol ("btc/x".toList)) =
      normalizeSymbol ("btc/x".toList) :=
  normalizeSymbol_idempotent_on ("btc/x".toList) (by decide) (by decide)

theorem findGroup_insertGrouped (k key : Int) (p : Bar) :
    ∀ acc : List (Int × List Bar),
      findGroup k (insertGrouped key p acc) =
        if key = k then findGroup k acc ++ [p] else findGroup k acc := by
  intro acc
  induction acc with
  | nil =>
    by_cases h : key = k <;> simp [insertGrouped, findGroup, h]
  | cons kp rest ih =>
    obtain ⟨q, ps⟩ := kp
    by_cases hq : q = key
    · subst hq
      by_cases hk : q = k
      · subst hk
        simp [insertGrouped, findGroup]
      · simp [insertGrouped, findGroup, hk]
    · by_cases hk : q = k
      · subst hk
        have hk2 : ¬ key = q := fun he => hq he.symm
        simp [insertGrouped, findGroup, hq, hk2]
      · simp [insertGrouped, findGroup, hq, hk, ih]

theorem findGroup_foldl (tfs k : Int) :
    ∀ (data : List Bar) (acc : List (Int × List Bar)),
      findGroup k (data.foldl (fun acc p => insertGrouped (bucketOf tfs p.time) p acc) acc) =
        findGroup k acc ++ data.filter (fun p => bucketOf tfs p.time == k) := by
  intro data
  induction data with
  | nil => intro acc; simp
  | cons p ds ih =>
    intro acc
    rw [List.foldl_cons, ih, findGroup_insertGrouped]
    by_cases h : bucketOf tfs p.time = k
    · simp [List.filter_cons, h]
    · simp [List.filter_cons, h]

theorem findGroup_groupByBucket (tfs k : Int) (data : List Bar) :
    findGroup k (groupByBucket tfs data) = bucketMembers tfs data k := by
  have h := findGroup_foldl tfs k data []
  simpa [groupByBucket, findGroup, bucketMembers] using h

theorem keys_insertGrouped (key : Int) (p : Bar) :
    ∀ acc : List (Int × List Bar),
      (insertGrouped key p acc).map Prod.fst =
        if key ∈ acc.map Prod.fst then acc.map Prod.fst
        else acc.map Prod.fst ++ [key] := by
  intro acc
  induction acc with
  | nil => simp [insertGrouped]
  | cons kp rest ih =>
    obtain ⟨q, ps⟩ := kp
    by_cases hq : q = key
    · subst hq
      simp [insertGrouped]
    · have hkq : ¬ key = q := fun he => hq he.symm
      by_cases hmem : key ∈ rest.map Prod.fst
      · simp [insertGrouped, hq, ih, hmem, hkq]
      · simp [insertGrouped, hq, ih, hmem, hkq]

theorem nodup_keys_foldl (tfs : Int) :
    ∀ (data : List Bar) (acc : List (Int × List Bar)),
      (acc.map Prod.fst).Nodup →
      ((data.foldl (fun acc p => insertGrouped (bucketOf tfs p.time) p acc) acc).map
        Prod.fst).Nodup := by
  intro data
  induction data with
  | nil => intro acc h; simpa using h
  | cons p ds ih =>
    intro acc h
    rw [List.foldl_cons]
    apply ih
    rw [keys_insertGrouped]
    by_cases hmem : bucketOf tfs p.time ∈ acc.map Prod.fst
    · simpa [hmem] using h
    · simp [hmem, List.nodup_append, h]

theorem nodup_keys_groupByBucket (tfs : Int) (data : List Bar) :
    ((groupByBucket tfs data).map Prod.fst).Nodup :=
  nodup_keys_foldl tfs data [] (by simp)

theorem groups_ne_nil_insertGrouped (key : Int) (p : Bar) :
    ∀ acc : List (Int × List Bar), (∀ kp ∈ acc, kp.2 ≠ []) →
      ∀ kp ∈ insertGrouped key p acc, kp.2 ≠ [] := by
  intro acc
  induction acc with
  | nil =>
    intro _ kp hkp
    simp [insertGrouped] at hkp
    simp [hkp]
  | cons e rest ih =>
    intro h kp hkp
    obtain ⟨q, ps⟩ := e
    by_cases hq : q = key
    · subst hq
      simp only [insertGrouped, if_pos rfl] at hkp
      rcases List.mem_cons.mp hkp with he | he
      · simp [he]
      · exact h kp (List.mem_cons_of_mem _ he)
    · simp only [insertGrouped, if_neg hq] at hkp
      rcases List.mem_cons.mp hkp with he | he
      · exact he ▸ h (q, ps) (List.mem_cons_self _ _)
      · exact ih (fun e2 he2 => h e2 (List.mem_cons_of_mem _ he2)) kp he

theorem groups_ne_nil_foldl (tfs : Int) :
    ∀ (data : List Bar) (acc : List (Int × List Bar)),
      (∀ kp ∈ acc, kp.2 ≠ []) →
      ∀ kp ∈ data.foldl (fun acc p => insertGrouped (bucketOf tfs p.time) p acc) acc,
        kp.2 ≠ [] := by
  intro data
  induction data with
  | nil => intro acc h; simpa using h
  | cons p ds ih =>
    intro acc h
    rw [List.foldl_cons]
    exact ih _ (groups_ne_nil_insertGrouped _ p acc h)

theorem findGroup_of_mem :
    ∀ l : List (Int × List Bar), (l.map Prod.fst).Nodup →
      ∀ kp ∈ l, findGroup kp.1 l = kp.2 := by
  intro l
  induction l with
  | nil => intro _ kp hkp; simp at hkp
  | cons e rest ih =>
    intro hnd kp hkp
    obtain ⟨q, ps⟩ := e
    rw [List.map_cons, List.nodup_cons] at hnd
    rcases List.mem_cons.mp hkp with he | he
    · rw [he]
      simp [findGroup]
    · have h1 : kp.1 ∈ rest.map Prod.fst := List.mem_map_of_mem Prod.fst he
      have hne : ¬ q = kp.1 := fun he2 => hnd.1 (he2 ▸ h1)
      simp only [findGroup, if_neg hne]
      exact ih hnd.2 kp he

theorem foldl_max_spec (x : ℚ) :
    ∀ l : List ℚ, (l.foldl max x = x ∨ l.foldl max x ∈ l) ∧
      x ≤ l.foldl max x ∧ ∀ y ∈ l, y ≤ l.foldl max x := by
  intro l
  induction l generalizing x with
  | nil => simp
  | cons a l ih =>
    rw [List.foldl_cons]
    obtain ⟨hmem, hle, hall⟩ := ih (max x a)
    refine ⟨?_, ?_, ?_⟩
    · rcases hmem with h | h
      · rcases max_choice x a with hc | hc
        · left; rw [h, hc]
        · right; rw [h, hc]; exact List.mem_cons_self a l
      · right; exact List.mem_cons_of_mem a h
    · exact le_trans (le_max_left x a) hle
    · intro y hy
      rcases List.mem_cons.mp hy with hy | hy
      · rw [hy]; exact le_trans (le_max_right x a) hle
      · exact hall y hy

theorem foldl_min_spec (x : ℚ) :
    ∀ l : List ℚ, (l.foldl min x = x ∨ l.foldl min x ∈ l) ∧
      l.foldl min x ≤ x ∧ ∀ y ∈ l, l.foldl min x ≤ y := by
  intro l
  induction l generalizing x with
  | nil => simp
  | cons a l ih =>
    rw [List.foldl_cons]
    obtain ⟨hmem, hle, hall⟩ := ih (min x a)
    refine ⟨?_, ?_, ?_⟩
    · rcases hmem with h | h
      · rcases min_choice x a with hc | hc
        · left; rw [h, hc]
        · right; rw [h, hc]; exact List.mem_cons_self a l
      · right; exact List.mem_cons_of_mem a h
    · exact le_trans hle (min_le_left x a)
    · intro y hy
      rcases List.mem_cons.mp hy with hy | hy
      · rw [hy]; exact le_trans hle (min_le_right x a)
      · exact hall y hy

theorem sorted_getLastD_max :
    ∀ (qs : List Bar) (q : Bar),
      List.Sorted (fun a b : Bar => a.time ≤ b.time) (q :: qs) →
      (qs.getLastD q ∈ q :: qs ∧ ∀ x ∈ q :: qs, x.time ≤ (qs.getLastD q).time) := by
  intro qs
  induction qs with
  | nil =>
    intro q _
    refine ⟨by simp [List.getLastD], ?_⟩
    intro x hx
    simp only [List.mem_singleton] at hx
    simp [hx, List.getLastD]
  | cons q2 qs2 ih =>
    intro q hs
    rw [List.getLastD_cons]
    obtain ⟨hmem, hall⟩ := ih q2 hs.of_cons
    refine ⟨List.mem_cons_of_mem q hmem, ?_⟩
    intro x hx
    rcases List.mem_cons.mp hx with hx | hx
    · have hq2 : x.time ≤ q2.time :=
        hx ▸ List.rel_of_sorted_cons hs q2 (List.mem_cons_self _ _)
      exact le_trans hq2 (hall q2 (List.mem_cons_self _ _))
    · exact hall x hx

theorem aggregateGroup_spec (k : Int) (ps : List Bar) (hne : ps ≠ []) :
    ∃ b, aggregateGroup k ps = some b ∧ b.time = k ∧
      (∃ p ∈ ps, (∀ x ∈ ps, p.time ≤ x.time) ∧ b.openP = p.openP) ∧
      (∃ p ∈ ps, (∀ x ∈ ps, x.time ≤ p.time) ∧ b.close = p.close) ∧
      (b.high ∈ ps.map Bar.high ∧ ∀ x ∈ ps, x.high ≤ b.high) ∧
      (b.low ∈ ps.map Bar.low ∧ ∀ x ∈ ps, b.low ≤ x.low) ∧
      b.volume = some ((ps.map (fun r => r.volume.getD 0)).sum) := by
  have hperm := List.perm_insertionSort (fun a b : Bar => a.time ≤ b.time) ps
  have hsort := List.sorted_insertionSort (fun a b : Bar => a.time ≤ b.time) ps
  cases hs : List.insertionSort (fun a b : Bar => a.time ≤ b.time) ps with
  | nil =>
    rw [hs] at hperm
    exact absurd hperm.symm.eq_nil hne
  | cons q qs =>
    rw [hs] at hperm hsort
    have hagg : aggregateGroup k ps = some
        { time := k, openP := q.openP,
          high := qs.foldl (fun m r => max m r.high) q.high,
          low := qs.foldl (fun m r => min m r.low) q.low,
          close := (qs.getLastD q).close,
          volume := some ((q :: qs).foldl (fun s r => s + r.volume.getD 0) 0) } := by
      unfold aggregateGroup
      rw [hs]
    refine ⟨_, hagg, rfl, ?_, ?_, ?_, ?_, ?_⟩
    · refine ⟨q, hperm.mem_iff.mp (List.mem_cons_self q qs), ?_, rfl⟩
      intro x hx
      rcases List.mem_cons.mp (hperm.mem_iff.mpr hx) with hx2 | hx2
      · exact le_of_eq (congrArg Bar.time hx2.symm)
      · exact List.rel_of_sorted_cons hsort x hx2
    · obtain ⟨hmem, hall⟩ := sorted_getLastD_max qs q hsort
      exact ⟨qs.getLastD q, hperm.mem_iff.mp hmem,
        fun x hx => hall x (hperm.mem_iff.mpr hx), rfl⟩
    · have hfm := List.foldl_map Bar.high (fun m h => max m h) qs q.high
      obtain ⟨hv, hx0, hall⟩ := foldl_max_spec q.high (qs.map Bar.high)
      rw [hfm] at hv hx0 hall
      constructor
      · have hin : qs.foldl (fun m r => max m r.high) q.high ∈ (q :: qs).map Bar.high := by
          rcases hv with h | h
          · rw [List.map_cons, h]; exact List.mem_cons_self _ _
          · rw [List.map_cons]; exact List.mem_cons_of_mem _ h
        exact ((hperm.map Bar.high).mem_iff).mp hin
      · intro y hy
        rcases List.mem_cons.mp (hperm.mem_iff.mpr hy) with h | h
        · exact le_of_eq (congrArg Bar.high h) |>.trans hx0
        · exact hall y.high (List.mem_map_of_mem Bar.high h)
    · have hfm := List.foldl_map Bar.low (fun m h => min m h) qs q.low
      obtain ⟨hv, hx0, hall⟩ := foldl_min_spec q.low (qs.map Bar.low)
      rw [hfm] at hv hx0 hall
      constructor
      · have hin : qs.foldl (fun m r => min m r.low) q.low ∈ (q :: qs).map Bar.low := by
          rcases hv with h | h
          · rw [List.map_cons, h]; exact List.mem_cons_self _ _
          · rw [List.map_cons]; exact List.mem_cons_of_mem _ h
        exact ((hperm.map Bar.low).mem_iff).mp hin
      · intro y hy
        rcases List.mem_cons.mp (hperm.mem_iff.mpr hy) with h | h
        · exact hx0.trans (le_of_eq (congrArg Bar.low h.symm))
        · exact hall y.low (List.mem_map_of_mem Bar.low h)
    · have h1 := List.foldl_map (fun r : Bar => r.volume.getD 0)
        (fun s x => s + x) (q :: qs) 0
      have h2 : ((q :: qs).map (fun r : Bar => r.volume.getD 0)).sum =
          ((q :: qs).map (fun r : Bar => r.volume.getD 0)).foldl (· + ·) 0 :=
        List.sum_eq_foldl
      have h3 := (hperm.map (fun r : Bar => r.volume.getD 0)).sum_eq
      show some ((q :: qs).foldl (fun s r => s + r.volume.getD 0) 0) = _
      rw [← h1, ← h2, h3]

theorem filterMap_aggregateGroup_times :
    ∀ l : List (Int × List Bar), (∀ kp ∈ l, kp.2 ≠ []) →
      (l.filterMap (fun kp => aggregateGroup kp.1 kp.2)).map Bar.time = l.map Prod.fst := by
  intro l
  induction l with
  | nil => intro _; rfl
  | cons kp rest ih =>
    intro h
    obtain ⟨b, hb, hbt, _⟩ := aggregateGroup_spec kp.1 kp.2 (h kp (List.mem_cons_self _ _))
    have hstep : List.filterMap (fun kp : Int × List Bar => aggregateGroup kp.1 kp.2)
        (kp :: rest) =
        b :: List.filterMap (fun kp : Int × List Bar => aggregateGroup kp.1 kp.2) rest := by
      simp only [List.filterMap_cons, hb]
    rw [hstep, List.map_cons, List.map_cons, hbt,
      ih (fun e he => h e (List.mem_cons_of_mem _ he))]

/-- C9: aggregateDataByTimeFrame maps the empty input to the empty output
and otherwise returns bars sorted strictly ascending by time; every bar
time is the bucket of some input time, and for the points of its bucket the
bar carries the open of an earliest point, the close of a latest point, the
maximum high, the minimum low, and the summed volumes with missing volume
read as zero. -/
theorem aggregateDataByTimeFrame_spec (data : List Bar) (tf : TimeFrame) :
    (data = [] → aggregateDataByTimeFrame data tf = []) ∧
    (aggregateDataByTimeFrame data tf).Pairwise (fun a b => a.time < b.time) ∧
    ∀ b ∈ aggregateDataByTimeFrame data tf,
      (∃ p ∈ data, b.time = bucketOf (getTimeFrameSeconds tf) p.time) ∧
      (∃ p ∈ bucketMembers (getTimeFrameSeconds tf) data b.time,
        (∀ x ∈ bucketMembers (getTimeFrameSeconds tf) data b.time, p.time ≤ x.time) ∧
        b.openP = p.openP) ∧
      (∃ p ∈ bucketMembers (getTimeFrameSeconds tf) data b.time,
        (∀ x ∈ bucketMembers (getTimeFrameSeconds tf) data b.time, x.time ≤ p.time) ∧
        b.close = p.close) ∧
      (b.high ∈ (bucketMembers (getTimeFrameSeconds tf) data b.time).map Bar.high ∧
        ∀ x ∈ bucketMembers (getTimeFrameSeconds tf) data b.time, x.high ≤ b.high) ∧
      (b.low ∈ (bucketMembers (getTimeFrameSeconds tf) data b.time).map Bar.low ∧
        ∀ x ∈ bucketMembers (getTimeFrameSeconds tf) data b.time, b.low ≤ x.low) ∧
      b.volume = some (((bucketMembers (getTimeFrameSeconds tf) data b.time).map
        (fun r => r.volume.getD 0)).sum) := by
  by_cases hd : data = []
  · subst hd
    refine ⟨fun _ => rfl, ?_, ?_⟩
    · simp [aggregateDataByTimeFrame]
    · intro b hb
      simp [aggregateDataByTimeFrame] at hb
  · have hout : aggregateDataByTimeFrame data tf =
        List.insertionSort (fun a b : Bar => a.time ≤ b.time)
          ((groupByBucket (getTimeFrameSeconds tf) data).filterMap
            (fun kp => aggregateGroup kp.1 kp.2)) := by
      simp only [aggregateDataByTimeFrame]
      rw [if_neg (fun h => hd (List.isEmpty_iff.mp h))]
    set tfs := getTimeFrameSeconds tf with htfs
    set grouped := groupByBucket tfs data with hgrouped
    set aggregated := grouped.filterMap (fun kp => aggregateGroup kp.1 kp.2) with haggdef
    have hkeysnd : (grouped.map Prod.fst).Nodup := nodup_keys_groupByBucket tfs data
    have hnonempty : ∀ kp ∈ grouped, kp.2 ≠ [] := by
      intro kp hkp
      exact groups_ne_nil_foldl tfs data [] (by simp) kp hkp
    have hfind : ∀ kp ∈ grouped, kp.2 = bucketMembers tfs data kp.1 := by
      intro kp hkp
      have h1 := findGroup_of_mem grouped hkeysnd kp hkp
      rw [← h1]
      exact findGroup_groupByBucket tfs kp.1 data
    have htimes : aggregated.map Bar.time = grouped.map Prod.fst :=
      filterMap_aggregateGroup_times grouped hnonempty
    have hperm := List.perm_insertionSort (fun a b : Bar => a.time ≤ b.time) aggregated
    have hsorted := List.sorted_insertionSort (fun a b : Bar => a.time ≤ b.time) aggregated
    refine ⟨fun h => absurd h hd, ?_, ?_⟩
    · rw [hout]
      have hnd : ((List.insertionSort (fun a b : Bar => a.time ≤ b.time) aggregated).map
          Bar.time).Nodup :=
        ((hperm.map Bar.time).nodup_iff).mpr (htimes ▸ hkeysnd)
      have hpne := List.pairwise_map.mp hnd
      exact (List.Pairwise.and hsorted hpne).imp (fun h => lt_of_le_of_ne h.1 h.2)
    · intro b hb
      rw [hout] at hb
      have hb2 : b ∈ aggregated := (List.mem_insertionSort _).mp hb
      obtain ⟨kp, hkp, hagg⟩ := List.mem_filterMap.mp hb2
      obtain ⟨b', hb', hbt, hopen, hclose, hhigh, hlow, hvol⟩ :=
        aggregateGroup_spec kp.1 kp.2 (hnonempty kp hkp)
      have hbb : b' = b := Option.some_injective _ (hb'.symm.trans hagg)
      subst hbb
      have hps : kp.2 = bucketMembers tfs data kp.1 := hfind kp hkp
      rw [hps] at hopen hclose hhigh hlow hvol
      rw [hbt]
      refine ⟨?_, hopen, hclose, hhigh, hlow, hvol⟩
      obtain ⟨p, hp⟩ := List.exists_mem_of_ne_nil _ (hps ▸ hnonempty kp hkp)
      have hp2 := List.mem_filter.mp hp
      exact ⟨p, hp2.1, (beq_iff_eq.mp hp2.2).symm⟩

/-- C9 witness: two points at times 5 and 70 aggregated at the one minute
frame give a bar at bucket time 0 whose time is the rounded time of an
input point. -/
theorem aggregateDataByTimeFrame_spec_witness :
    ∃ p ∈ [({ time := 5, openP := 1, high := 10, low := 0, close := 2,
              volume := some 3 } : Bar),
           { time := 70, openP := 4, high := 40, low := 2, close := 6,
              volume := none }],
      ({ time := 0, openP := 1, high := 10, low := 0, close := 2,
         volume := some 3 } : Bar).time =
        bucketOf (getTimeFrameSeconds TimeFrame.m1) p.time :=
  ((aggregateDataByTimeFrame_spec
      [{ time := 5, openP := 1, high := 10, low := 0, close := 2, volume := some 3 },
       { time := 70, openP := 4, high := 40, low := 2, close := 6, volume := none }]
      TimeFrame.m1).2.2
    { time := 0, openP := 1, high := 10, low := 0, close := 2, volume := some 3 }
    (by
      have h1 : Int.fdiv 5 60 = 0 := by decide
      have h2 : Int.fdiv 70 60 = 1 := by decide
      norm_num [aggregateDataByTimeFrame, groupByBucket, insertGrouped, aggregateGroup,
        bucketOf, getTimeFrameSeconds, List.insertionSort, List.orderedInsert, h1, h2])).1

end VibeTrade
